import Mathlib

/-!
Shallow embedding of the character-selection engine of `src/main.rs`
(ascii-in-the-park): the Values-mode bucket mapper (`paint_values`), the
glyph cache (`generate_char_imgs`), and the template matcher (`paint_flat`).

Machine arithmetic: the source computes the derived geometry (`rows`, `h`,
tile origins) and the bucket index with `f32`; every quantity involved
(dimensions, palette byte lengths, luminance values, products below 2^24)
is exactly representable, so those computations are embedded as exact
integer floors.  Fallible operations (`unwrap` on `Option`/`Result`,
out-of-range indexing — i.e. panics) are embedded with `Option`, `none`
standing for a panic that aborts the conversion.
-/

/-- A decoded grayscale image (the `to_luma8` view of a `DynamicImage`):
dimensions plus a total pixel function returning the luma value (0..255)
at a coordinate. -/
structure GrayImg where
  width : Nat
  height : Nat
  pix : Nat → Nat → Nat

/-- `paint_flat`: `let tile_w = 10;`. -/
def tileW : Nat := 10

/-- `paint_flat`: `let tile_h = tile_w * line_height as u32;` with
`line_height = 2.0` (set once in `paint`). -/
def tileH : Nat := tileW * 2

/-- `u32::MAX`, the initial `best_score` of the matching loop. -/
def u32MAX : Int := 4294967295

/-- Number of bytes of the UTF-8 encoding of one character; `str::len`
in Rust is the total of these over the string's characters. -/
def charUtf8Size (c : Char) : Nat :=
  if c.toNat < 128 then 1
  else if c.toNat < 2048 then 2
  else if c.toNat < 65536 then 3
  else 4

/-- `palette.len()` in the source: the UTF-8 **byte** length of the
palette string (not its character count). -/
def utf8Len (palette : List Char) : Nat :=
  (palette.map charUtf8Size).sum

/-- The bucket index computed in `paint_values`:
`(palette.len() as f32 * (v as f32 / 256.0)) as usize`.
For `v ≤ 255` and byte lengths below 2^16 the `f32` computation is exact
and truncation toward zero is the integer floor, so it equals
`len * v / 256` in `Nat`. -/
def bucketIndex (palette : List Char) (v : Nat) : Nat :=
  utf8Len palette * v / 256

/-- The per-sample closure of `paint_values` (lines 105–112): optional
inversion, then `palette.chars().nth(bucketIndex).unwrap()`; `none`
models the panic when `nth` runs past the end of the palette. -/
def bucketSample (palette : List Char) (invert : Bool) (v : Nat) : Option Char :=
  palette.get? (bucketIndex palette (if invert then 255 - v else v))

/-- Modelled from the spec: the Resampler downsizes the source image with
nearest-neighbor interpolation (`resize_exact(_, _, FilterType::Nearest)`
of the external `image` crate, not part of this repository).  Output
coordinate `x` of `dst` samples the nearest source coordinate,
`floor((x + 1/2) * src / dst)`, clamped to the source range. -/
def nearestIdx (x dst src : Nat) : Nat :=
  if dst = 0 then 0 else min (src - 1) ((2 * x + 1) * src / (2 * dst))

/-- Modelled from the spec: row-major luma samples of the source resized
to `cols × rows` with nearest-neighbor interpolation (see `nearestIdx`). -/
def resampleNearest (img : GrayImg) (cols rows : Nat) : List Nat :=
  ((List.range rows).map (fun y =>
    (List.range cols).map (fun x =>
      img.pix (nearestIdx x cols img.width) (nearestIdx y rows img.height)))).flatten

/-- The derived row count, shared by both modes:
`let rows = (cols as f32 / (ar * line_height)) as u32;` with
`ar = width / height` and `line_height = 2.0`; exact-arithmetic floor:
`cols * height / (2 * width)`. -/
def rowsOf (img : GrayImg) (cols : Nat) : Nat :=
  cols * img.height / (2 * img.width)

/-- Sequencing of per-cell optional results: the Rust loops panic (abort)
as soon as one element does, otherwise produce the list of values. -/
def optMap {α β : Type} (f : α → Option β) : List α → Option (List β)
  | [] => some []
  | a :: l =>
    match f a with
    | none => none
    | some b =>
      match optMap f l with
      | none => none
      | some bs => some (b :: bs)

/-- `paint_values` (lines 92–116): derive `rows`, resample to
`cols × rows` luma samples, map each through the bucket selection.
`none` models the `unwrap` panic inside the per-pixel closure. -/
def paint_values (img : GrayImg) (cols : Nat) (invert : Bool) (palette : List Char) :
    Option (List Char) :=
  optMap (bucketSample palette invert) (resampleNearest img cols (rowsOf img cols))

/-- A solid image: every pixel has luma `v`. -/
def solidGray (w h v : Nat) : GrayImg :=
  ⟨w, h, fun _ _ => v⟩

/-- `PALETTE[0]`, the 9-level ASCII ramp `" .-=+*#%@"`. -/
def asciiPalette : List Char :=
  [' ', '.', '-', '=', '+', '*', '#', '%', '@']

/-- `PALETTE[2]`, the Braille-range 256-level ramp: the 256 characters
U+2800 … U+28FF, each of which is 3 bytes long in UTF-8. -/
def braillePalette : List Char :=
  (List.range 256).map (fun i => Char.ofNat (10240 + i))

/-- State of one disk-tier cache path (`cache/<hash>.png`): either no file
exists, or a file exists whose decoding (`image::open`) either fails
(`decoded = none`) or yields a bitmap. -/
inductive DiskEntry : Type
  | absent : DiskEntry
  | file (decoded : Option (List Nat)) : DiskEntry

/-- The two cache tiers of `generate_char_imgs`: the in-process
`HashMap<char, GrayImage>` and the disk files.  Within one conversion the
tile size is fixed, so the disk key `hash((c, tile_w, tile_h))` is
determined by the character alone and both tiers are keyed by `Char`
(the hash is treated as collision-free). -/
structure CacheState where
  mem : Char → Option (List Nat)
  disk : Char → DiskEntry

/-- The per-character body of `generate_char_imgs` (lines 138–164):
memory-tier lookup, then disk-tier lookup (`image::open(..).unwrap()` —
`none` models the panic on a file that does not decode), then
rasterization (abstracted as `raster`), which saves to disk and inserts
into the memory tier.  Note the disk-hit branch returns **without**
touching the memory tier. -/
def getOrRender (st : CacheState) (raster : Char → List Nat) (c : Char) :
    Option (List Nat × CacheState) :=
  match st.mem c with
  | some img => some (img, st)
  | none =>
    match st.disk c with
    | DiskEntry.file dec =>
      match dec with
      | some img => some (img, st)
      | none => none
    | DiskEntry.absent =>
      let img := raster c
      some (img,
        { mem := fun x => if x = c then some img else st.mem x,
          disk := fun x => if x = c then DiskEntry.file (some img) else st.disk x })

/-- `generate_char_imgs` (lines 118–171): map `getOrRender` over the
palette characters, threading the cache state left to right. -/
def generate_char_imgs (raster : Char → List Nat) :
    List Char → CacheState → Option (List (List Nat) × CacheState)
  | [], st => some ([], st)
  | c :: cs, st =>
    match getOrRender st raster c with
    | none => none
    | some (img, st2) =>
      match generate_char_imgs raster cs st2 with
      | none => none
      | some (imgs, st3) => some (img :: imgs, st3)

/-- Both cache tiers empty. -/
def emptyCache : CacheState :=
  ⟨fun _ => none, fun _ => DiskEntry.absent⟩

/-- Memory tier empty; every disk path holds a file that fails to decode. -/
def corruptDiskCache : CacheState :=
  ⟨fun _ => none, fun _ => DiskEntry.file none⟩

/-- Memory tier empty; every disk path holds a valid cached bitmap
`[1, 2, 3]`. -/
def validDiskCache : CacheState :=
  ⟨fun _ => none, fun _ => DiskEntry.file (some [1, 2, 3])⟩

/-- A rasterizer producing the bitmap `[0]` for every character (stands
for the fresh `draw_text_mut` rendering). -/
def constRaster : Char → List Nat := fun _ => [0]

/-- A cache state whose tiers hold exactly what `raster` would produce:
each memory entry is absent or equals the rasterization, each disk entry
is absent or a decodable file equal to the rasterization.  This is the
spec's invariant that rasterization is deterministic and cache entries
are never rewritten with different content. -/
def CacheCoherent (st : CacheState) (raster : Char → List Nat) : Prop :=
  ∀ c : Char,
    (st.mem c = none ∨ st.mem c = some (raster c)) ∧
    (st.disk c = DiskEntry.absent ∨ st.disk c = DiskEntry.file (some (raster c)))

/-- Memory tier empty; every disk path holds the (valid) bitmap that
`raster` produces for its character. -/
def diskCacheOf (raster : Char → List Nat) : CacheState :=
  ⟨fun _ => none, fun c => DiskEntry.file (some (raster c))⟩

/-- `paint_flat`: `let w = cols * tile_w;`. -/
def flatW (cols : Nat) : Nat := cols * tileW

/-- `paint_flat`: `let h = (w as f32 / ar) as u32;` with
`ar = width / height`; exact-arithmetic floor `w * height / width`. -/
def flatH (img : GrayImg) (cols : Nat) : Nat :=
  flatW cols * img.height / img.width

/-- Luminance inversion (`img.invert()` before the per-tile `to_luma8`,
or the per-sample `255 - v` in Values mode). -/
def invertPix (invert : Bool) (v : Nat) : Nat :=
  if invert then 255 - v else v

/-- The image `paint_flat` matches against:
`img.resize_exact(w, h, Nearest)` (nearest-neighbor, see `nearestIdx`)
followed by `img.invert()` when requested. -/
def resizedFlat (img : GrayImg) (cols : Nat) (invert : Bool) : GrayImg :=
  ⟨flatW cols, flatH img cols, fun x y =>
    invertPix invert
      (img.pix (nearestIdx x (flatW cols) img.width)
        (nearestIdx y (flatH img cols) img.height))⟩

/-- The dimensions of `crop_imm((i % cols) * tile_w, (i / cols) * tile_h,
tile_w, tile_h)` on the resized `w × h` image: the `image` crate clamps
the origin to the image and the extent to what remains, so a crop
touching the boundary comes back smaller than requested. -/
def tileDims (img : GrayImg) (cols i : Nat) : Nat × Nat :=
  (min tileW (flatW cols - min ((i % cols) * tileW) (flatW cols)),
   min tileH (flatH img cols - min ((i / cols) * tileH) (flatH img cols)))

/-- Row-major luma pixels of the full-size `tile_w × tile_h` crop of
`img` at origin `(x0, y0)` (used only when the crop is full-size). -/
def tilePixels (img : GrayImg) (x0 y0 : Nat) : List Nat :=
  ((List.range tileH).map (fun dy =>
    (List.range tileW).map (fun dx => img.pix (x0 + dx) (y0 + dy)))).flatten

/-- The tile of cell `i`: the crop of the resized (and possibly inverted)
image at `((i % cols) * tile_w, (i / cols) * tile_h)`. -/
def flatTile (img : GrayImg) (cols : Nat) (invert : Bool) (i : Nat) : List Nat :=
  tilePixels (resizedFlat img cols invert) ((i % cols) * tileW) ((i / cols) * tileH)

/-- The single value of `match_template(char_img, tile, SumOfSquaredErrors)`
for equal-size arguments, summed by the source into the score: the sum of
squared pixel differences.  Each term and every partial sum stays below
2^24, so the `f32` accumulation in the source is exact. -/
def sse (g t : List Nat) : Int :=
  ((g.zip t).map (fun p => ((p.1 : Int) - (p.2 : Int)) ^ 2)).sum

/-- `let score = matched.pixels().map(..).sum::<f32>().abs() as u32;`:
the sum is a non-negative integer, and the `as u32` float-to-integer cast
saturates at `u32::MAX`. -/
def scoreU32 (g t : List Nat) : Int :=
  min (sse g t) u32MAX

/-- The scoring loop of `paint_flat` (lines 216–232): scan the scores in
palette order keeping the first strict improvement
(`best = 0; best_score = u32::MAX; if score < best_score { .. }`).
Arguments: remaining scores, index of the next score, current `best`,
current `best_score`. -/
def runBest : List Int → Nat → Nat → Int → Nat × Int
  | [], _, best, bestScore => (best, bestScore)
  | x :: rest, ci, best, bestScore =>
    if x < bestScore then runBest rest (ci + 1) ci x
    else runBest rest (ci + 1) best bestScore

/-- Index of the glyph chosen for a tile: run the scoring loop over the
`scoreU32` of every candidate glyph against the tile. -/
def bestMatchIdx (charImgs : List (List Nat)) (tile : List Nat) : Nat :=
  (runBest (charImgs.map (fun g => scoreU32 g tile)) 0 0 u32MAX).1

/-- One iteration of the cell loop of `paint_flat` (lines 200–234): crop
the tile; on a size mismatch assign the sentinel `'_'` and move on;
otherwise assign `chars[best]` for the best-scoring glyph (`none` models
the panic of `chars[best]` on an empty palette). -/
def flatCell (img : GrayImg) (cols : Nat) (invert : Bool) (chars : List Char)
    (charImgs : List (List Nat)) (i : Nat) : Option Char :=
  if tileDims img cols i = (tileW, tileH) then
    chars.get? (bestMatchIdx charImgs (flatTile img cols invert i))
  else some '_'

/-- The cell loop of `paint_flat` over the whole `cols * rows` grid,
given the realized glyph bitmaps (the `'*'`-prefilled vector is fully
overwritten: the loop covers every index). -/
def paint_flat_imgs (img : GrayImg) (cols : Nat) (invert : Bool) (chars : List Char)
    (charImgs : List (List Nat)) : Option (List Char) :=
  optMap (flatCell img cols invert chars charImgs) (List.range (cols * rowsOf img cols))

/-- `paint_flat` (lines 173–237): realize the palette glyphs through the
glyph cache, then run the matching loop over every cell. -/
def paint_flat (img : GrayImg) (cols : Nat) (invert : Bool) (palette : List Char)
    (st : CacheState) (raster : Char → List Nat) : Option (List Char) :=
  match generate_char_imgs raster palette st with
  | none => none
  | some (charImgs, _) => paint_flat_imgs img cols invert palette charImgs

/-- A 200-pixel all-zero glyph bitmap (tile size `10 × 20`). -/
def glyphZero : List Nat := List.replicate (tileW * tileH) 0

/-- A 200-pixel constant tile of luma 7. -/
def tileSeven : List Nat := List.replicate (tileW * tileH) 7

/-- A rasterizer producing the all-zero 200-pixel bitmap for every
character. -/
def zeroRaster : Char → List Nat := fun _ => glyphZero

set_option maxRecDepth 4096 in
/-- C1: the claim states that for every luminance sample `v ∈ [0,255]` and
every non-empty palette the selected index is `floor(len * v / 256)`
clamped to `[0, len - 1]`, so selection always succeeds.  The code is
wrong: it computes the index from the UTF-8 **byte** length of the
palette string but selects with `chars().nth`, which counts characters.
On the built-in 256-character Braille preset (768 bytes) and sample
`v = 86` the index is `768 * 86 / 256 = 258 ≥ 256`, `nth` returns `None`
and `unwrap` panics (embedded as `none`). -/
theorem C1_bucket_braille_overflow : bucketSample braillePalette false 86 = none := by
  decide

/-- C2 counterexample: a solid black 10×10 image, `cols = 2`, the ASCII
ramp, no inversion.  The claim says every cell is the highest-index
character `'@'`; the code maps luma 0 to bucket index 0, i.e. the
lowest-index character `' '`, so the produced 2×1 grid is two spaces,
not `'@'`. -/
theorem C2_black_counterexample :
    paint_values (solidGray 10 10 0) 2 false asciiPalette = some [' ', ' '] ∧
      (' ' : Char) ≠ '@' := by
  constructor
  · decide
  · decide

/-- C2 as amended: for the solid black 10×10 image, `cols = 2`, palette
`" .-=+*#%@"` and no inversion, every cell of the produced grid is the
**lowest**-index palette character `' '` (full-black luminance 0 maps to
bucket index 0), the grid is 2 columns × 1 derived row, and no sentinel
character appears. -/
theorem C2_black_maps_to_space :
    paint_values (solidGray 10 10 0) 2 false asciiPalette = some [' ', ' '] ∧
      asciiPalette.get? 0 = some ' ' ∧
      rowsOf (solidGray 10 10 0) 2 = 1 ∧
      '_' ∉ ([' ', ' '] : List Char) := by
  refine ⟨by decide, by decide, by decide, by decide⟩

set_option maxRecDepth 8192 in
/-- C6: the claim states that for every image and `cols > 0`,
`paint_values` returns exactly `cols × rows` characters, each a member of
the supplied palette.  The code is wrong for multi-byte palettes: with a
solid white 10×10 image, `cols = 2` and the built-in Braille preset, the
bucket index is `768 * 255 / 256 = 765` on a 256-character palette, so
`nth(..).unwrap()` panics and nothing is returned (embedded as `none`). -/
theorem C6_values_braille_panics :
    paint_values (solidGray 10 10 255) 2 false braillePalette = none := by
  decide

/-- C8: bucket mapping is monotonic — for post-inversion samples
`v1 < v2`, the bucket index chosen for `v1` is ≤ the index chosen for
`v2` (the index `len * v / 256` is monotone in `v`). -/
theorem C8_bucket_monotone (palette : List Char) (v1 v2 : Nat) (h : v1 < v2) :
    bucketIndex palette v1 ≤ bucketIndex palette v2 :=
  Nat.div_le_div_right (Nat.mul_le_mul_left _ (Nat.le_of_lt h))

/-- Witness for C8 at the concrete samples 3 < 5 on the ASCII ramp. -/
theorem C8_bucket_monotone_witness :
    3 < 5 ∧ bucketIndex asciiPalette 3 ≤ bucketIndex asciiPalette 5 :=
  ⟨by decide, C8_bucket_monotone asciiPalette 3 5 (by decide)⟩

/-- C3: the claim states that an existing-but-undecodable disk cache file
is treated as a cache miss (re-rasterize and overwrite) and never
propagated as a fatal error.  The code is wrong: the disk-hit branch is
`image::open(cache_file).unwrap()`, so a file that exists but fails to
decode panics the whole conversion (embedded as `none`) instead of
falling through to rasterization. -/
theorem C3_corrupt_cache_panics :
    getOrRender corruptDiskCache constRaster 'a' = none := rfl

/-- C7 counterexample: with an empty memory tier and a valid disk entry
`[1, 2, 3]` for `'a'`, `getOrRender` returns the disk bitmap together
with the **unchanged** cache state — the claim that the bitmap is
inserted into the memory tier before being returned is false: the memory
tier still has no entry for `'a'`. -/
theorem C7_disk_hit_counterexample :
    getOrRender validDiskCache constRaster 'a' = some ([1, 2, 3], validDiskCache) ∧
      validDiskCache.mem 'a' = none :=
  ⟨rfl, rfl⟩

/-- C7 as amended: when a key misses the memory tier and hits the disk
tier with a decodable file, the decoded bitmap is returned but the cache
state (in particular the memory tier) is left unchanged, so a subsequent
lookup of the same key consults the disk again; only the rasterization
path inserts into the memory tier. -/
theorem C7_disk_hit_no_mem_insert (st : CacheState) (raster : Char → List Nat)
    (c : Char) (img : List Nat) (hm : st.mem c = none)
    (hd : st.disk c = DiskEntry.file (some img)) :
    getOrRender st raster c = some (img, st) := by
  unfold getOrRender
  rw [hm, hd]

/-- Witness for C7 at the concrete state `validDiskCache` and key `'a'`. -/
theorem C7_disk_hit_no_mem_insert_witness :
    validDiskCache.mem 'a' = none ∧
      validDiskCache.disk 'a' = DiskEntry.file (some [1, 2, 3]) ∧
      getOrRender validDiskCache constRaster 'a' = some ([1, 2, 3], validDiskCache) :=
  ⟨rfl, rfl, C7_disk_hit_no_mem_insert validDiskCache constRaster 'a' [1, 2, 3] rfl rfl⟩

/-- If every element maps to `some`, the sequenced loop succeeds. -/
theorem optMap_some_of_isSome {α β : Type} (f : α → Option β) :
    ∀ l : List α, (∀ a ∈ l, (f a).isSome) → ∃ g, optMap f l = some g := by
  intro l
  induction l with
  | nil => intro h; exact ⟨[], rfl⟩
  | cons a t ih =>
    intro h
    obtain ⟨b, hb⟩ := Option.isSome_iff_exists.mp (h a (List.mem_cons_self a t))
    obtain ⟨g, hg⟩ := ih (fun x hx => h x (List.mem_cons_of_mem a hx))
    exact ⟨b :: g, by simp [optMap, hb, hg]⟩

/-- A successful sequenced loop produces one output per input. -/
theorem optMap_length {α β : Type} (f : α → Option β) :
    ∀ (l : List α) (g : List β), optMap f l = some g → g.length = l.length := by
  intro l
  induction l with
  | nil =>
    intro g h
    simp only [optMap, Option.some.injEq] at h
    simp [← h]
  | cons a t ih =>
    intro g h
    simp only [optMap] at h
    cases hfa : f a with
    | none => rw [hfa] at h; exact absurd h (by simp)
    | some b =>
      rw [hfa] at h
      cases hrec : optMap f t with
      | none => rw [hrec] at h; exact absurd h (by simp)
      | some bs =>
        rw [hrec] at h
        simp only [Option.some.injEq] at h
        subst h
        simp [ih bs hrec]

/-- Entry `i` of a successful sequenced loop is `f` of input `i`. -/
theorem optMap_get {α β : Type} (f : α → Option β) :
    ∀ (l : List α) (g : List β), optMap f l = some g →
      ∀ (i : Nat) (hl : i < l.length) (hg : i < g.length),
        f (l.get ⟨i, hl⟩) = some (g.get ⟨i, hg⟩) := by
  intro l
  induction l with
  | nil => intro g h i hl; exact absurd hl (by simp)
  | cons a t ih =>
    intro g h i hl hg
    simp only [optMap] at h
    cases hfa : f a with
    | none => rw [hfa] at h; exact absurd h (by simp)
    | some b =>
      rw [hfa] at h
      cases hrec : optMap f t with
      | none => rw [hrec] at h; exact absurd h (by simp)
      | some bs =>
        rw [hrec] at h
        simp only [Option.some.injEq] at h
        subst h
        cases i with
        | zero => simpa using hfa
        | succ j => exact ih bs hrec j (Nat.lt_of_succ_lt_succ hl) (Nat.lt_of_succ_lt_succ hg)

/-- Every output of a successful sequenced loop comes from some input. -/
theorem optMap_mem {α β : Type} (f : α → Option β) :
    ∀ (l : List α) (g : List β), optMap f l = some g →
      ∀ b ∈ g, ∃ a ∈ l, f a = some b := by
  intro l
  induction l with
  | nil =>
    intro g h b hb
    simp only [optMap, Option.some.injEq] at h
    subst h
    exact absurd hb (by simp)
  | cons a t ih =>
    intro g h b hb
    simp only [optMap] at h
    cases hfa : f a with
    | none => rw [hfa] at h; exact absurd h (by simp)
    | some b0 =>
      rw [hfa] at h
      cases hrec : optMap f t with
      | none => rw [hrec] at h; exact absurd h (by simp)
      | some bs =>
        rw [hrec] at h
        simp only [Option.some.injEq] at h
        subst h
        rcases List.mem_cons.mp hb with hb0 | hbs
        · exact ⟨a, List.mem_cons_self a t, hb0 ▸ hfa⟩
        · obtain ⟨x, hx, hfx⟩ := ih bs hrec b hbs
          exact ⟨x, List.mem_cons_of_mem a hx, hfx⟩

/-- Full characterization of the scoring loop `runBest` on scores `l`,
starting at absolute index `k` with current champion `(b, s)`: the final
score never exceeds the initial one and is a lower bound of every scanned
score; the final champion is either the untouched initial one or a
strictly improving scanned score together with its absolute index; and
whenever a scanned score equals the final score (and the final score
strictly improved on the initial one), the final index is at most that
score's index — the earliest-index tie-break. -/
theorem runBest_spec (l : List Int) :
    ∀ (k b : Nat) (s : Int),
      (runBest l k b s).2 ≤ s ∧
      (∀ (j : Nat) (hj : j < l.length), (runBest l k b s).2 ≤ l.get ⟨j, hj⟩) ∧
      (runBest l k b s = (b, s) ∨
        ((runBest l k b s).2 < s ∧
          ∃ (j : Nat) (hj : j < l.length), runBest l k b s = (k + j, l.get ⟨j, hj⟩))) ∧
      (∀ (j : Nat) (hj : j < l.length),
        l.get ⟨j, hj⟩ = (runBest l k b s).2 → (runBest l k b s).2 < s →
          (runBest l k b s).1 ≤ k + j) := by
  induction l with
  | nil =>
    intro k b s
    refine ⟨le_refl s, ?_, Or.inl rfl, ?_⟩
    · intro j hj; exact absurd hj (by simp)
    · intro j hj; exact absurd hj (by simp)
  | cons x t ih =>
    intro k b s
    by_cases hx : x < s
    · have hrw : runBest (x :: t) k b s = runBest t (k + 1) k x := by
        simp [runBest, hx]
      obtain ⟨iha, ihb, ihc, ihd⟩ := ih (k + 1) k x
      rw [hrw]
      refine ⟨le_trans iha (le_of_lt hx), ?_, ?_, ?_⟩
      · intro j hj
        cases j with
        | zero => exact iha
        | succ j2 => exact ihb j2 (Nat.lt_of_succ_lt_succ hj)
      · rcases ihc with h0 | ⟨hlt, j2, hj2, hr⟩
        · refine Or.inr ⟨?_, 0, by simp, ?_⟩
          · rw [h0]; exact hx
          · rw [h0]; rfl
        · refine Or.inr ⟨lt_trans hlt hx, j2 + 1, Nat.succ_lt_succ hj2, ?_⟩
          have heq : k + 1 + j2 = k + (j2 + 1) := by omega
          rw [hr, heq]
          rfl
      · intro j hj hje hlt2
        cases j with
        | zero =>
          rcases ihc with h0 | ⟨hlt, -, -, -⟩
          · rw [h0]; exact Nat.le_add_right k 0
          · have hx2 : x = (runBest t (k + 1) k x).2 := hje
            rw [← hx2] at hlt
            exact absurd hlt (lt_irrefl x)
        | succ j2 =>
          rcases ihc with h0 | ⟨hlt, -, -, -⟩
          · rw [h0]; exact Nat.le_add_right k (j2 + 1)
          · have hd2 := ihd j2 (Nat.lt_of_succ_lt_succ hj) hje hlt
            omega
    · have hs : s ≤ x := le_of_not_lt hx
      have hrw : runBest (x :: t) k b s = runBest t (k + 1) b s := by
        simp [runBest, hx]
      obtain ⟨iha, ihb, ihc, ihd⟩ := ih (k + 1) b s
      rw [hrw]
      refine ⟨iha, ?_, ?_, ?_⟩
      · intro j hj
        cases j with
        | zero => exact le_trans iha hs
        | succ j2 => exact ihb j2 (Nat.lt_of_succ_lt_succ hj)
      · rcases ihc with h0 | ⟨hlt, j2, hj2, hr⟩
        · exact Or.inl h0
        · refine Or.inr ⟨hlt, j2 + 1, Nat.succ_lt_succ hj2, ?_⟩
          have heq : k + 1 + j2 = k + (j2 + 1) := by omega
          rw [hr, heq]
          rfl
      · intro j hj hje hlt2
        cases j with
        | zero =>
          have hx2 : x = (runBest t (k + 1) b s).2 := hje
          exact absurd (lt_of_lt_of_le hlt2 (le_trans hs (le_of_eq hx2))) (lt_irrefl _)
        | succ j2 =>
          have hd2 := ihd j2 (Nat.lt_of_succ_lt_succ hj) hje hlt2
          omega

/-- The loop's chosen index is in range whenever there is at least one
candidate (either the initial `best = 0` survives, or the champion is the
index of a scanned score). -/
theorem runBest_fst_lt (l : List Int) (s : Int) (hl : l ≠ []) :
    (runBest l 0 0 s).1 < l.length := by
  obtain ⟨-, -, hc, -⟩ := runBest_spec l 0 0 s
  rcases hc with h0 | ⟨-, j, hj, hr⟩
  · rw [h0]; exact List.length_pos.mpr hl
  · rw [hr]; simpa using hj

/-- For byte-valued pixel lists the sum of squared differences is bounded
by `255² = 65025` per glyph pixel. -/
theorem sse_le (g : List Nat) : ∀ (t : List Nat),
    (∀ v ∈ g, v ≤ 255) → (∀ v ∈ t, v ≤ 255) →
      sse g t ≤ (g.length : Int) * 65025 := by
  induction g with
  | nil => intro t hg ht; simp [sse]
  | cons a g2 ih =>
    intro t hg ht
    cases t with
    | nil =>
      have h0 : sse (a :: g2) [] = 0 := by simp [sse]
      rw [h0]
      positivity
    | cons b t2 =>
      have ha : a ≤ 255 := hg a (List.mem_cons_self _ _)
      have hb : b ≤ 255 := ht b (List.mem_cons_self _ _)
      have hterm : ((a : Int) - (b : Int)) ^ 2 ≤ 65025 := by
        have h1 : ((a : Int) - b) ≤ 255 := by
          have ha2 : (a : Int) ≤ 255 := by exact_mod_cast ha
          have hb0 : (0 : Int) ≤ (b : Int) := Int.natCast_nonneg b
          omega
        have h2 : -(255 : Int) ≤ ((a : Int) - b) := by
          have hb2 : (b : Int) ≤ 255 := by exact_mod_cast hb
          have ha0 : (0 : Int) ≤ (a : Int) := Int.natCast_nonneg a
          omega
        have hsq := sq_le_sq' h2 h1
        norm_num at hsq
        exact hsq
      have hcons : sse (a :: g2) (b :: t2) = ((a : Int) - (b : Int)) ^ 2 + sse g2 t2 := by
        simp [sse]
      have hrest := ih t2 (fun v hv => hg v (List.mem_cons_of_mem _ hv))
        (fun v hv => ht v (List.mem_cons_of_mem _ hv))
      rw [hcons]
      simp only [List.length_cons]
      push_cast
      linarith

/-- At the fixed `10 × 20` tile size the score fits far below `u32::MAX`,
so the saturating cast is the identity and the loop compares true sums of
squared differences. -/
theorem scoreU32_eq_sse (g t : List Nat) (hglen : g.length = tileW * tileH)
    (hg : ∀ v ∈ g, v ≤ 255) (ht : ∀ v ∈ t, v ≤ 255) :
    scoreU32 g t = sse g t := by
  have h := sse_le g t hg ht
  rw [hglen] at h
  have hlt : sse g t < u32MAX :=
    lt_of_le_of_lt h (by norm_num [tileW, tileH, u32MAX])
  exact min_eq_left (le_of_lt hlt)

/-- Every score in the list fed to the loop is strictly below the initial
`u32::MAX` champion. -/
theorem sse_lt_u32MAX (g t : List Nat) (hglen : g.length = tileW * tileH)
    (hg : ∀ v ∈ g, v ≤ 255) (ht : ∀ v ∈ t, v ≤ 255) :
    sse g t < u32MAX := by
  have h := sse_le g t hg ht
  rw [hglen] at h
  exact lt_of_le_of_lt h (by norm_num [tileW, tileH, u32MAX])

/-- C4: for a correctly sized tile (byte-valued pixels) the matcher picks
an in-range palette index whose glyph bitmap minimizes the sum of squared
pixel differences against the tile, and on ties (equal minimal sum) the
smallest palette index wins. -/
theorem C4_tile_matcher_argmin (charImgs : List (List Nat)) (tile : List Nat)
    (hne : charImgs ≠ [])
    (hglen : ∀ g ∈ charImgs, g.length = tileW * tileH)
    (hgval : ∀ g ∈ charImgs, ∀ v ∈ g, v ≤ 255)
    (htval : ∀ v ∈ tile, v ≤ 255) :
    bestMatchIdx charImgs tile < charImgs.length ∧
      ∀ (j : Nat), j < charImgs.length →
        sse (charImgs.getD (bestMatchIdx charImgs tile) []) tile ≤
            sse (charImgs.getD j []) tile ∧
          (sse (charImgs.getD j []) tile =
              sse (charImgs.getD (bestMatchIdx charImgs tile) []) tile →
            bestMatchIdx charImgs tile ≤ j) := by
  set l := charImgs.map (fun g => scoreU32 g tile) with hl
  have hlen : l.length = charImgs.length := by simp [hl]
  have hget : ∀ (j : Nat) (hj : j < l.length),
      l.get ⟨j, hj⟩ = sse (charImgs.getD j []) tile := by
    intro j hj
    have hj2 : j < charImgs.length := by rw [← hlen]; exact hj
    have hmem : charImgs.get ⟨j, hj2⟩ ∈ charImgs := List.get_mem _ _ _
    have h2 : scoreU32 (charImgs.get ⟨j, hj2⟩) tile = sse (charImgs.get ⟨j, hj2⟩) tile :=
      scoreU32_eq_sse _ tile (hglen _ hmem) (hgval _ hmem) htval
    have h3 : charImgs.getD j [] = charImgs.get ⟨j, hj2⟩ := by
      rw [List.getD_eq_getElem charImgs [] hj2, List.get_eq_getElem]
    have h1 : l.get ⟨j, hj⟩ = scoreU32 (charImgs.get ⟨j, hj2⟩) tile := by
      simp only [hl, List.get_eq_getElem, List.getElem_map]
    rw [h1, h2, h3]
  have hbm : bestMatchIdx charImgs tile = (runBest l 0 0 u32MAX).1 := by
    unfold bestMatchIdx
    rw [hl]
  have hlne : l ≠ [] := by
    intro hnil
    rw [hl] at hnil
    exact hne (List.map_eq_nil_iff.mp hnil)
  have h0lt : 0 < l.length := List.length_pos.mpr hlne
  have hsall : ∀ (j : Nat) (hj : j < l.length), l.get ⟨j, hj⟩ < u32MAX := by
    intro j hj
    rw [hget j hj]
    have hj2 : j < charImgs.length := by rw [← hlen]; exact hj
    have hmem : charImgs.getD j [] ∈ charImgs := by
      rw [List.getD_eq_getElem charImgs [] hj2, ← List.get_eq_getElem charImgs ⟨j, hj2⟩]
      exact List.get_mem _ _ _
    exact sse_lt_u32MAX _ tile (hglen _ hmem) (hgval _ hmem) htval
  obtain ⟨ha, hb, hc, hd⟩ := runBest_spec l 0 0 u32MAX
  rcases hc with hinit | ⟨hlt, j0, hj0, hr⟩
  · exfalso
    have hub := hb 0 h0lt
    rw [hinit] at hub
    simp at hub
    have hlt0 := hsall 0 h0lt
    simp at hlt0
    omega
  · have hr1 : (runBest l 0 0 u32MAX).1 = 0 + j0 := by rw [hr]
    have hbest : bestMatchIdx charImgs tile = j0 := by
      rw [hbm, hr1]
      omega
    have hbe : sse (charImgs.getD (bestMatchIdx charImgs tile) []) tile
        = (runBest l 0 0 u32MAX).2 := by
      rw [hbest, ← hget j0 hj0, hr]
    constructor
    · rw [hbest, ← hlen]; exact hj0
    · intro j hj
      have hjl : j < l.length := by rw [hlen]; exact hj
      constructor
      · rw [hbe, ← hget j hjl]
        exact hb j hjl
      · intro hEq
        have hEq2 : l.get ⟨j, hjl⟩ = (runBest l 0 0 u32MAX).2 := by
          rw [hget j hjl, hEq, hbe]
        have hdj := hd j hjl hEq2 hlt
        rw [hbest]
        omega

/-- Witness for C4: two deliberately identical all-zero glyph bitmaps
against a constant tile (the tie is broken toward index 0). -/
theorem C4_tile_matcher_argmin_witness :
    ([glyphZero, glyphZero] : List (List Nat)) ≠ [] ∧
      (bestMatchIdx [glyphZero, glyphZero] tileSeven < 2 ∧
        ∀ (j : Nat), j < 2 →
          sse ([glyphZero, glyphZero].getD (bestMatchIdx [glyphZero, glyphZero] tileSeven) [])
              tileSeven ≤
              sse ([glyphZero, glyphZero].getD j []) tileSeven ∧
            (sse ([glyphZero, glyphZero].getD j []) tileSeven =
                sse ([glyphZero, glyphZero].getD (bestMatchIdx [glyphZero, glyphZero] tileSeven) [])
                  tileSeven →
              bestMatchIdx [glyphZero, glyphZero] tileSeven ≤ j)) := by
  refine ⟨by decide, ?_⟩
  have h := C4_tile_matcher_argmin [glyphZero, glyphZero] tileSeven (by decide)
    (by
      intro g hg
      rcases List.mem_cons.mp hg with h1 | h1
      · simp [h1, glyphZero]
      · rcases List.mem_cons.mp h1 with h2 | h2
        · simp [h2, glyphZero]
        · exact absurd h2 (by simp))
    (by
      intro g hg v hv
      have hz : g = glyphZero := by
        rcases List.mem_cons.mp hg with h1 | h1
        · exact h1
        · rcases List.mem_cons.mp h1 with h2 | h2
          · exact h2
          · exact absurd h2 (by simp)
      rw [hz] at hv
      have hv0 := List.eq_of_mem_replicate hv
      omega)
    (by
      intro v hv
      have hv7 := List.eq_of_mem_replicate hv
      omega)
  simpa using h

/-- With coherent tiers, one cache lookup returns exactly the
rasterization of the key and leaves the tiers coherent. -/
theorem getOrRender_coherent (st : CacheState) (raster : Char → List Nat) (c : Char)
    (h : CacheCoherent st raster) :
    ∃ st2, getOrRender st raster c = some (raster c, st2) ∧ CacheCoherent st2 raster := by
  obtain ⟨hm, hd⟩ := h c
  rcases hm with hm0 | hmv
  · rcases hd with hd0 | hdv
    · refine ⟨⟨fun x => if x = c then some (raster c) else st.mem x,
        fun x => if x = c then DiskEntry.file (some (raster c)) else st.disk x⟩, ?_, ?_⟩
      · unfold getOrRender
        rw [hm0, hd0]
      · intro x
        by_cases hx : x = c
        · subst hx
          exact ⟨Or.inr (by simp), Or.inr (by simp)⟩
        · exact ⟨by simpa [hx] using (h x).1, by simpa [hx] using (h x).2⟩
    · refine ⟨st, ?_, h⟩
      unfold getOrRender
      rw [hm0, hdv]
  · refine ⟨st, ?_, h⟩
    unfold getOrRender
    rw [hmv]

/-- With coherent tiers, realizing the palette yields exactly the
rasterizations, in palette order. -/
theorem generate_char_imgs_coherent (raster : Char → List Nat) :
    ∀ (cs : List Char) (st : CacheState), CacheCoherent st raster →
      ∃ st2, generate_char_imgs raster cs st = some (cs.map raster, st2) ∧
        CacheCoherent st2 raster := by
  intro cs
  induction cs with
  | nil => intro st h; exact ⟨st, rfl, h⟩
  | cons c cs2 ih =>
    intro st h
    obtain ⟨stA, hrunA, hA⟩ := getOrRender_coherent st raster c h
    obtain ⟨stB, hrunB, hB⟩ := ih stA hA
    refine ⟨stB, ?_, hB⟩
    simp [generate_char_imgs, hrunA, hrunB]

/-- With coherent tiers `paint_flat` reduces to the pure matching loop on
the rasterized palette. -/
theorem paint_flat_eq_imgs (img : GrayImg) (cols : Nat) (invert : Bool)
    (palette : List Char) (st : CacheState) (raster : Char → List Nat)
    (hco : CacheCoherent st raster) :
    paint_flat img cols invert palette st raster =
      paint_flat_imgs img cols invert palette (palette.map raster) := by
  obtain ⟨st2, hrun, -⟩ := generate_char_imgs_coherent raster palette st hco
  unfold paint_flat
  rw [hrun]

/-- With a non-empty palette and one glyph per character, every cell of
the matching loop produces a character (no panic). -/
theorem flatCell_isSome (img : GrayImg) (cols : Nat) (invert : Bool)
    (chars : List Char) (charImgs : List (List Nat)) (i : Nat)
    (hne : chars ≠ []) (hlen : charImgs.length = chars.length) :
    (flatCell img cols invert chars charImgs i).isSome := by
  unfold flatCell
  by_cases hdim : tileDims img cols i = (tileW, tileH)
  · rw [if_pos hdim]
    have hImgs : charImgs ≠ [] := by
      intro h0
      rw [h0] at hlen
      exact hne (List.length_eq_zero.mp hlen.symm)
    have hlt : bestMatchIdx charImgs (flatTile img cols invert i) < chars.length := by
      have h1 : (charImgs.map (fun g => scoreU32 g (flatTile img cols invert i))) ≠ [] := by
        simpa using hImgs
      have h2 := runBest_fst_lt _ u32MAX h1
      unfold bestMatchIdx
      rw [← hlen]
      simpa using h2
    rw [List.get?_eq_get hlt]
    rfl
  · rw [if_neg hdim]
    rfl

/-- Characterization of the matching loop on realized glyph bitmaps: it
always completes with a full `cols * rows` grid; a cell whose crop is not
exactly `tile_w × tile_h` holds the sentinel `'_'`, and every other cell
holds the palette character selected by the scorer. -/
theorem paint_flat_imgs_spec (img : GrayImg) (cols : Nat) (invert : Bool)
    (chars : List Char) (charImgs : List (List Nat))
    (hne : chars ≠ []) (hlen : charImgs.length = chars.length) :
    ∃ grid, paint_flat_imgs img cols invert chars charImgs = some grid ∧
      grid.length = cols * rowsOf img cols ∧
      ∀ (i : Nat) (hi : i < grid.length),
        (tileDims img cols i ≠ (tileW, tileH) → grid.get ⟨i, hi⟩ = '_') ∧
        (tileDims img cols i = (tileW, tileH) →
          some (grid.get ⟨i, hi⟩) =
            chars.get? (bestMatchIdx charImgs (flatTile img cols invert i))) := by
  obtain ⟨grid, hgrid⟩ := optMap_some_of_isSome _ (List.range (cols * rowsOf img cols))
    (fun a _ => flatCell_isSome img cols invert chars charImgs a hne hlen)
  have hglen : grid.length = cols * rowsOf img cols := by
    have hh := optMap_length _ _ _ hgrid
    simpa using hh
  refine ⟨grid, hgrid, hglen, ?_⟩
  intro i hi
  have hirange : i < (List.range (cols * rowsOf img cols)).length := by
    rw [List.length_range]
    exact hglen ▸ hi
  have hcell := optMap_get _ _ _ hgrid i hirange hi
  have hri : (List.range (cols * rowsOf img cols)).get ⟨i, hirange⟩ = i := by
    simp
  rw [hri] at hcell
  constructor
  · intro hdim
    unfold flatCell at hcell
    rw [if_neg hdim] at hcell
    exact (Option.some_inj.mp hcell).symm
  · intro hdim
    unfold flatCell at hcell
    rw [if_pos hdim] at hcell
    exact hcell.symm

/-- C5: in template-matching mode the conversion always completes with a
full `cols × rows` grid; every cell whose cropped tile is not exactly the
expected `tile_w × tile_h` is assigned the fixed sentinel `'_'` instead
of being scored, and every cell whose tile has the expected size is
assigned by the glyph scorer (never the sentinel path). -/
theorem C5_tile_mismatch_sentinel (img : GrayImg) (cols : Nat) (invert : Bool)
    (palette : List Char) (st : CacheState) (raster : Char → List Nat)
    (hp : palette ≠ []) (hco : CacheCoherent st raster) :
    ∃ grid, paint_flat img cols invert palette st raster = some grid ∧
      grid.length = cols * rowsOf img cols ∧
      ∀ (i : Nat) (hi : i < grid.length),
        (tileDims img cols i ≠ (tileW, tileH) → grid.get ⟨i, hi⟩ = '_') ∧
        (tileDims img cols i = (tileW, tileH) →
          some (grid.get ⟨i, hi⟩) =
            palette.get? (bestMatchIdx (palette.map raster) (flatTile img cols invert i))) := by
  rw [paint_flat_eq_imgs img cols invert palette st raster hco]
  exact paint_flat_imgs_spec img cols invert palette (palette.map raster) hp (by simp)

/-- Witness for C5 on a solid 10×10 image, 2 columns, one-character
palette and empty caches. -/
theorem C5_tile_mismatch_sentinel_witness :
    (['a'] : List Char) ≠ [] ∧ CacheCoherent emptyCache zeroRaster ∧
      (∃ grid, paint_flat (solidGray 10 10 0) 2 false ['a'] emptyCache zeroRaster = some grid ∧
        grid.length = 2 * rowsOf (solidGray 10 10 0) 2 ∧
        ∀ (i : Nat) (hi : i < grid.length),
          (tileDims (solidGray 10 10 0) 2 i ≠ (tileW, tileH) → grid.get ⟨i, hi⟩ = '_') ∧
          (tileDims (solidGray 10 10 0) 2 i = (tileW, tileH) →
            some (grid.get ⟨i, hi⟩) =
              (['a'] : List Char).get?
                (bestMatchIdx ((['a'] : List Char).map zeroRaster)
                  (flatTile (solidGray 10 10 0) 2 false i)))) :=
  ⟨by decide, fun _ => ⟨Or.inl rfl, Or.inl rfl⟩,
    C5_tile_mismatch_sentinel (solidGray 10 10 0) 2 false ['a'] emptyCache zeroRaster
      (by decide) (fun _ => ⟨Or.inl rfl, Or.inl rfl⟩)⟩

/-- C9: template matching is deterministic — with any two coherent cache
states (glyphs served from the memory tier, the disk tier, or fresh
rasterization, in any mix), the same image, column count, invert flag and
palette produce the identical character grid. -/
theorem C9_flat_deterministic (img : GrayImg) (cols : Nat) (invert : Bool)
    (palette : List Char) (raster : Char → List Nat) (st1 st2 : CacheState)
    (h1 : CacheCoherent st1 raster) (h2 : CacheCoherent st2 raster) :
    paint_flat img cols invert palette st1 raster =
      paint_flat img cols invert palette st2 raster := by
  rw [paint_flat_eq_imgs img cols invert palette st1 raster h1,
    paint_flat_eq_imgs img cols invert palette st2 raster h2]

/-- Witness for C9: a cold run (everything rasterized) against a run
served entirely from the disk tier. -/
theorem C9_flat_deterministic_witness :
    CacheCoherent emptyCache zeroRaster ∧
      CacheCoherent (diskCacheOf zeroRaster) zeroRaster ∧
      paint_flat (solidGray 10 10 0) 2 false ['a', 'b'] emptyCache zeroRaster =
        paint_flat (solidGray 10 10 0) 2 false ['a', 'b'] (diskCacheOf zeroRaster) zeroRaster :=
  ⟨fun _ => ⟨Or.inl rfl, Or.inl rfl⟩, fun _ => ⟨Or.inl rfl, Or.inr rfl⟩,
    C9_flat_deterministic (solidGray 10 10 0) 2 false ['a', 'b'] zeroRaster emptyCache
      (diskCacheOf zeroRaster) (fun _ => ⟨Or.inl rfl, Or.inl rfl⟩)
      (fun _ => ⟨Or.inl rfl, Or.inr rfl⟩)⟩

/-- C10: every character of the grid produced by template matching is
either a palette character or the sentinel `'_'`; in particular the
`'*'` used to pre-fill the vector never survives (the loop overwrites
every cell). -/
theorem C10_flat_chars_in_palette (img : GrayImg) (cols : Nat) (invert : Bool)
    (palette : List Char) (st : CacheState) (raster : Char → List Nat)
    (hp : palette ≠ []) (hco : CacheCoherent st raster) :
    ∃ grid, paint_flat img cols invert palette st raster = some grid ∧
      ∀ c ∈ grid, c ∈ palette ∨ c = '_' := by
  rw [paint_flat_eq_imgs img cols invert palette st raster hco]
  obtain ⟨grid, hgrid, -, -⟩ :=
    paint_flat_imgs_spec img cols invert palette (palette.map raster) hp (by simp)
  refine ⟨grid, hgrid, ?_⟩
  intro c hc
  obtain ⟨a, -, hfa⟩ := optMap_mem _ _ _ hgrid c hc
  unfold flatCell at hfa
  by_cases hdim : tileDims img cols a = (tileW, tileH)
  · rw [if_pos hdim] at hfa
    exact Or.inl (List.get?_mem hfa)
  · rw [if_neg hdim] at hfa
    exact Or.inr (Option.some_inj.mp hfa).symm

/-- Witness for C10 on a solid 10×10 image, 4 columns, two-character
palette and empty caches. -/
theorem C10_flat_chars_in_palette_witness :
    (['a', 'b'] : List Char) ≠ [] ∧ CacheCoherent emptyCache zeroRaster ∧
      (∃ grid,
        paint_flat (solidGray 10 10 0) 4 false ['a', 'b'] emptyCache zeroRaster = some grid ∧
          ∀ c ∈ grid, c ∈ (['a', 'b'] : List Char) ∨ c = '_') :=
  ⟨by decide, fun _ => ⟨Or.inl rfl, Or.inl rfl⟩,
    C10_flat_chars_in_palette (solidGray 10 10 0) 4 false ['a', 'b'] emptyCache zeroRaster
      (by decide) (fun _ => ⟨Or.inl rfl, Or.inl rfl⟩)⟩
